import Mathlib

set_option maxHeartbeats 1000000

namespace MitoFetch

/-! Shallow embedding of src/fetcher/file_io.py.

File contents are modelled as `Option (List String)`: `none` means the
backing file is absent, `some lines` means the file exists with the given
lines.  A Python exception escaping a function is modelled by an
`Option`/`Except` result. -/

/-- ASCII whitespace accepted by Python's str.strip and int. -/
def isPyWs (c : Char) : Bool :=
  c = ' ' || c = '\t' || c = '\n' || c = '\r' || c = '\x0b' || c = '\x0c'

/-- Python str.strip with no argument (ASCII whitespace at both ends). -/
def pyStrip (s : String) : String :=
  String.mk (((s.toList.dropWhile isPyWs).reverse.dropWhile isPyWs).reverse)

/-- Python str.split with a one-character separator, on a character list:
split at every occurrence of the separator, keeping empty parts. -/
def splitAux (sep : Char) : List Char → List (List Char)
  | [] => [[]]
  | c :: cs =>
    if c = sep then [] :: splitAux sep cs
    else
      match splitAux sep cs with
      | r :: rs => (c :: r) :: rs
      | [] => [[c]]

/-- Python str.split with a one-character separator. -/
def pySplit (sep : Char) (s : String) : List String :=
  (splitAux sep s.toList).map String.mk

/-- Continuation of a Python decimal digit run: further digits, with a
single underscore allowed between two digits. -/
def pyDigitsAux : Nat → List Char → Option Nat
  | acc, [] => some acc
  | acc, '_' :: c :: cs =>
    if c.isDigit then pyDigitsAux (acc * 10 + (c.toNat - 48)) cs else none
  | acc, c :: cs =>
    if c.isDigit then pyDigitsAux (acc * 10 + (c.toNat - 48)) cs else none

/-- Value of a Python decimal digit run (the part after the optional
sign): nonempty, must start and end with a digit. -/
def pyDigits : List Char → Option Nat
  | [] => none
  | c :: cs => if c.isDigit then pyDigitsAux (c.toNat - 48) cs else none

/-- Python int applied to a decimal string: optional surrounding
whitespace, optional sign, then a digit run.  Accepts 0 and negative
values, as Python's int does. -/
def pyIntOfString (s : String) : Option Int :=
  match (s.toList.dropWhile isPyWs).reverse.dropWhile isPyWs |>.reverse with
  | '-' :: rest => (pyDigits rest).map (fun n => -(n : Int))
  | '+' :: rest => (pyDigits rest).map (fun n => (n : Int))
  | rest => (pyDigits rest).map (fun n => (n : Int))

/-- split_accession from file_io.py: split the accession on the dot and
parse the version with int.  The result is none exactly when the Python
code raises ValueError (not exactly two parts, or int fails). -/
def split_accession (accession : String) : Option (String × Int) :=
  match pySplit '.' accession with
  | [accession_id, version] => (pyIntOfString version).map (fun v => (accession_id, v))
  | _ => none

/-- Python dict.fromkeys insertion loop over a list of strings: first
occurrence wins; seen holds the keys already inserted. -/
def dedupAux (seen : List String) : List String → List String
  | [] => []
  | x :: xs => if seen.contains x then dedupAux seen xs else x :: dedupAux (x :: seen) xs

/-- save_processed_ids from file_io.py: the lines written to the new
ledger snapshot, as a function of the newly processed batch and the
prior snapshot loaded from disk.  The source concatenates the new ids
first and deduplicates with dict.fromkeys. -/
def save_processed_ids (processed_ids old_processed_ids : List String) : List String :=
  dedupAux [] (processed_ids ++ old_processed_ids)

/-- A row of the entries table of duplicate_removal after the helper
columns are added: pandas row label (the 0-based insertion index), the
accession string, and its identifier and version parts. -/
structure KRow where
  idx : Nat
  acc : String
  id : String
  version : Int
deriving DecidableEq

/-- Rows of the entries table passed to duplicate_removal: pandas row
labels are the 0-based insertion indices. -/
def rowsOf (accs : List String) : List (Nat × String) := accs.enum

/-- pandas duplicated on the accession column keeping the last
occurrence: a row is marked iff a row with the same accession appears
later. -/
def laterDup (rows : List (Nat × String)) (r : Nat × String) : Bool :=
  rows.any (fun s => decide (r.1 < s.1) && (s.2 == r.2))

/-- Rows surviving the identical-accession dedup of duplicate_removal
(drop_duplicates keeping the last occurrence of each accession). -/
def survivors (rows : List (Nat × String)) : List (Nat × String) :=
  rows.filter (fun r => !(laterDup rows r))

/-- Adding the id and version helper columns: split_accession applied
to every surviving row; none models the ValueError escaping the apply. -/
def withKeys : List (Nat × String) → Option (List KRow)
  | [] => some []
  | r :: rs =>
    match split_accession r.2, withKeys rs with
    | some p, some ks => some (⟨r.1, r.2, p.1, p.2⟩ :: ks)
    | _, _ => none

/-- The rows of one identifier group, in row order. -/
def groupOf (S : List KRow) (i : String) : List KRow :=
  S.filter (fun k => k.id == i)

/-- pandas groupby over id followed by idxmax on the version column,
for one group: the label of the first row attaining the maximum
version. -/
def keepIdx (S : List KRow) (i : String) : Option Nat :=
  ((groupOf S i).find? (fun r => (groupOf S i).all (fun s => decide (s.version ≤ r.version)))).map
    (fun r => r.idx)

/-- duplicate_removal from file_io.py, returning (kept rows, rows
dropped with reason duplicate, rows dropped with reason update); none
models a ValueError raised while splitting an accession.  Kept rows are
listed here in input order, and with the helper columns still attached;
the source reorders them by identifier group and drops the helper
columns, which no claim depends on. -/
def duplicate_removal (accs : List String) :
    Option (List KRow × List (Nat × String) × List KRow) :=
  let rows := rowsOf accs
  match withKeys (survivors rows) with
  | none => none
  | some S =>
    some (S.filter (fun r => keepIdx S r.id == some r.idx),
          rows.filter (fun r => laterDup rows r),
          S.filter (fun r => !(keepIdx S r.id == some r.idx)))

/-- A Python loop that parses every element of a list and raises on the
first failure: none models the exception escaping the whole loop. -/
def parseAll {α β : Type} (f : α → Option β) : List α → Option (List β)
  | [] => some []
  | x :: xs =>
    match f x, parseAll f xs with
    | some y, some ys => some (y :: ys)
    | _, _ => none

/-- One line of the version-index store as read by load_local_versions:
strip the line, split on the dot into exactly two parts, parse the
version with int.  none models the uncaught ValueError. -/
def parseIdsLine (line : String) : Option (String × Int) :=
  match pySplit '.' (pyStrip line) with
  | [accession, version] => (pyIntOfString version).map (fun v => (accession, v))
  | _ => none

/-- Assignment of v to key k on a Python dict modelled as an assoc list
kept in key insertion order. -/
def dictInsert (d : List (String × Int)) (k : String) (v : Int) : List (String × Int) :=
  if d.any (fun p => p.1 == k) then
    d.map (fun p => if p.1 == k then (k, v) else p)
  else d ++ [(k, v)]

/-- Build a dict by successive assignments, as the loops of
load_local_versions and load_removed_versions do. -/
def pyDictOf (prs : List (String × Int)) : List (String × Int) :=
  prs.foldl (fun d p => dictInsert d p.1 p.2) []

/-- Dict lookup. -/
def lookupD (d : List (String × Int)) (k : String) : Option Int :=
  (d.find? (fun p => p.1 == k)).map (fun p => p.2)

/-- load_local_versions from file_io.py over the file contents: an
absent file yields the empty dict; a malformed line raises ValueError,
which propagates to the caller (modelled as Except.error). -/
def load_local_versions (contents : Option (List String)) :
    Except String (List (String × Int)) :=
  match contents with
  | none => Except.ok []
  | some lines =>
    match parseAll parseIdsLine lines with
    | none => Except.error "ValueError"
    | some prs => Except.ok (pyDictOf prs)

/-- One data line of the removed-ids store as read by
load_removed_versions: strip, split on the comma into exactly two
fields, then split the first field on the dot and parse the version. -/
def parseRemovedLine (line : String) : Option (String × Int) :=
  match pySplit ',' (pyStrip line) with
  | [accession_num, _] =>
    match pySplit '.' (pyStrip accession_num) with
    | [accession, version] => (pyIntOfString version).map (fun v => (accession, v))
    | _ => none
  | _ => none

/-- Result of load_removed_versions: the Python function returns the
empty list when the file is absent and a dict otherwise, so the two
branches have different types. -/
inductive RemovedLoad where
  | emptyList : RemovedLoad
  | versionDict : List (String × Int) → RemovedLoad
deriving DecidableEq

/-- load_removed_versions from file_io.py over the file contents: none
models an uncaught exception (StopIteration from next on an empty file,
or ValueError from a malformed line).  The first line is skipped as a
header. -/
def load_removed_versions (contents : Option (List String)) : Option RemovedLoad :=
  match contents with
  | none => some RemovedLoad.emptyList
  | some [] => none
  | some (_ :: rest) =>
    match parseAll parseRemovedLine rest with
    | none => none
    | some prs => some (RemovedLoad.versionDict (pyDictOf prs))

/-- Identifier part of an accession: Python takes element 0 of the dot
split. -/
def rootOf (acc : String) : String := (pySplit '.' acc).headD ""

/-- The stores touched by clean_profiles_from_data.  Each file is none
when absent.  The version-index file is its list of (stripped,
nonempty) lines; the removed-ids and metadata stores are modelled by
their accession columns (the metadata store is assumed to have one);
the sequence directory by the root names of its fasta files (only
fasta files are ever touched). -/
structure DataState where
  idsFile : Option (List String)
  removedFile : Option (List String)
  metadataFile : Option (List String)
  seqsDir : Option (List String)
deriving DecidableEq

/-- clean_profiles_from_data from file_io.py: keep only the rows whose
accession is in the keep set in each existing store, delete the fasta
files whose root is not the identifier part of a kept accession, and
return 0.  (When nothing is removed from a file the source skips the
rewrite; the resulting contents are the same either way.) -/
def clean_profiles_from_data (ids_list : List String) (st : DataState) : Nat × DataState :=
  let keep_set := ids_list
  let valid_roots := keep_set.map rootOf
  (0,
   { idsFile := st.idsFile.map (fun lines => lines.filter (fun ln => keep_set.contains ln))
     removedFile := st.removedFile.map (fun rows => rows.filter (fun a => keep_set.contains a))
     metadataFile := st.metadataFile.map (fun rows => rows.filter (fun a => keep_set.contains a))
     seqsDir := st.seqsDir.map (fun roots => roots.filter (fun r => valid_roots.contains r)) })

/-- An accession (or root name) is present in a store: the backing file
exists and one of its rows carries the value. -/
def memStore (o : Option (List String)) (a : String) : Prop :=
  ∃ l, o = some l ∧ a ∈ l

/-! Helper lemmas. -/

lemma exists_argmax {α β : Type} [LinearOrder β] (f : α → β) (l : List α) (hl : l ≠ []) :
    ∃ m ∈ l, ∀ s ∈ l, f s ≤ f m := by
  induction l with
  | nil => exact absurd rfl hl
  | cons x xs ih =>
    by_cases hxs : xs = []
    · subst hxs
      exact ⟨x, by simp, by simp⟩
    · obtain ⟨m, hm, hmax⟩ := ih hxs
      by_cases hc : f x ≤ f m
      · refine ⟨m, by simp [hm], ?_⟩
        intro s hs
        rcases List.mem_cons.mp hs with rfl | hs
        · exact hc
        · exact hmax s hs
      · refine ⟨x, by simp, ?_⟩
        intro s hs
        rcases List.mem_cons.mp hs with rfl | hs
        · exact le_rfl
        · exact (hmax s hs).trans (le_of_not_le hc)

lemma mem_of_mem_enumFrom {α : Type} {a : α} :
    ∀ (l : List α) (n i : Nat), (i, a) ∈ l.enumFrom n → a ∈ l := by
  intro l
  induction l with
  | nil => intro n i h; simp [List.enumFrom] at h
  | cons x xs ih =>
    intro n i h
    simp only [List.enumFrom, List.mem_cons, Prod.mk.injEq] at h
    rcases h with ⟨-, rfl⟩ | h
    · exact List.mem_cons_self _ _
    · exact List.mem_cons_of_mem _ (ih (n + 1) i h)

lemma exists_mem_enumFrom {α : Type} {a : α} :
    ∀ (l : List α), a ∈ l → ∀ n : Nat, ∃ i, (i, a) ∈ l.enumFrom n := by
  intro l
  induction l with
  | nil => intro h; simp at h
  | cons x xs ih =>
    intro h n
    rcases List.mem_cons.mp h with rfl | h
    · exact ⟨n, by simp [List.enumFrom]⟩
    · obtain ⟨i, hi⟩ := ih h (n + 1)
      exact ⟨i, by simp [List.enumFrom]; right; exact hi⟩

lemma le_fst_of_mem_enumFrom {α : Type} :
    ∀ (l : List α) (n : Nat) (p : Nat × α), p ∈ l.enumFrom n → n ≤ p.1 := by
  intro l
  induction l with
  | nil => intro n p h; simp [List.enumFrom] at h
  | cons x xs ih =>
    intro n p h
    simp only [List.enumFrom, List.mem_cons] at h
    rcases h with rfl | h
    · exact le_rfl
    · exact (Nat.le_succ n).trans (ih (n + 1) p h)

lemma pairwise_fst_lt_enumFrom {α : Type} :
    ∀ (l : List α) (n : Nat), (l.enumFrom n).Pairwise (fun p q => p.1 < q.1) := by
  intro l
  induction l with
  | nil => intro n; simp [List.enumFrom]
  | cons x xs ih =>
    intro n
    refine List.Pairwise.cons ?_ (ih (n + 1))
    intro q hq
    exact lt_of_lt_of_le (Nat.lt_succ_self n) (le_fst_of_mem_enumFrom xs (n + 1) q hq)

lemma mem_survivors_iff {rows : List (Nat × String)} {r : Nat × String} :
    r ∈ survivors rows ↔ r ∈ rows ∧ ∀ s ∈ rows, r.1 < s.1 → s.2 ≠ r.2 := by
  simp [survivors, List.mem_filter, laterDup]

lemma exists_survivor (rows : List (Nat × String)) (r : Nat × String) (hr : r ∈ rows) :
    ∃ s ∈ survivors rows, s.2 = r.2 := by
  have hrc : r ∈ rows.filter (fun s => s.2 == r.2) := by
    simp [List.mem_filter, hr]
  obtain ⟨m, hm, hmax⟩ :=
    exists_argmax (fun s : Nat × String => s.1) (rows.filter (fun s => s.2 == r.2))
      (List.ne_nil_of_mem hrc)
  have hm' := List.mem_filter.mp hm
  have hmacc : m.2 = r.2 := by simpa using hm'.2
  refine ⟨m, ?_, hmacc⟩
  rw [mem_survivors_iff]
  refine ⟨hm'.1, ?_⟩
  intro s hs hlt hacc
  have hsc : s ∈ rows.filter (fun t => t.2 == r.2) := by
    simp [List.mem_filter, hs, hacc, hmacc]
  have := hmax s hsc
  omega

lemma withKeys_cons {r : Nat × String} {rs : List (Nat × String)} {S : List KRow}
    (h : withKeys (r :: rs) = some S) :
    ∃ p ks, split_accession r.2 = some p ∧ withKeys rs = some ks ∧
      S = ⟨r.1, r.2, p.1, p.2⟩ :: ks := by
  cases h1 : split_accession r.2 with
  | none => rw [withKeys, h1] at h; simp at h
  | some p =>
    cases h2 : withKeys rs with
    | none => rw [withKeys, h1, h2] at h; simp at h
    | some ks =>
      rw [withKeys, h1, h2] at h
      simp only [Option.some.injEq] at h
      exact ⟨p, ks, rfl, rfl, h.symm⟩

lemma withKeys_mem :
    ∀ {rs : List (Nat × String)} {S : List KRow}, withKeys rs = some S →
      ∀ k ∈ S, (k.idx, k.acc) ∈ rs ∧ split_accession k.acc = some (k.id, k.version) := by
  intro rs
  induction rs with
  | nil =>
    intro S h k hk
    rw [withKeys] at h
    simp only [Option.some.injEq] at h
    subst h
    simp at hk
  | cons r rs ih =>
    intro S h k hk
    obtain ⟨p, ks, h1, h2, rfl⟩ := withKeys_cons h
    rcases List.mem_cons.mp hk with rfl | hk
    · exact ⟨List.mem_cons_self _ _, by simpa using h1⟩
    · obtain ⟨hmem, hsp⟩ := ih h2 k hk
      exact ⟨List.mem_cons_of_mem _ hmem, hsp⟩

lemma withKeys_surj :
    ∀ {rs : List (Nat × String)} {S : List KRow}, withKeys rs = some S →
      ∀ r ∈ rs, ∃ k ∈ S, k.idx = r.1 ∧ k.acc = r.2 := by
  intro rs
  induction rs with
  | nil => intro S h r hr; simp at hr
  | cons x rs ih =>
    intro S h r hr
    obtain ⟨p, ks, h1, h2, rfl⟩ := withKeys_cons h
    rcases List.mem_cons.mp hr with rfl | hr
    · exact ⟨⟨r.1, r.2, p.1, p.2⟩, List.mem_cons_self _ _, rfl, rfl⟩
    · obtain ⟨k, hk, hki, hka⟩ := ih h2 r hr
      exact ⟨k, List.mem_cons_of_mem _ hk, hki, hka⟩

lemma withKeys_map_idx :
    ∀ {rs : List (Nat × String)} {S : List KRow}, withKeys rs = some S →
      S.map (fun k => k.idx) = rs.map Prod.fst := by
  intro rs
  induction rs with
  | nil =>
    intro S h
    rw [withKeys] at h
    simp only [Option.some.injEq] at h
    subst h
    simp
  | cons r rs ih =>
    intro S h
    obtain ⟨p, ks, h1, h2, rfl⟩ := withKeys_cons h
    simp [ih h2]

lemma S_pairwise_idx {accs : List String} {S : List KRow}
    (hW : withKeys (survivors (rowsOf accs)) = some S) :
    S.Pairwise (fun a b => a.idx < b.idx) := by
  have h1 : (rowsOf accs).Pairwise (fun p q => p.1 < q.1) := pairwise_fst_lt_enumFrom accs 0
  have h2 : (survivors (rowsOf accs)).Pairwise (fun p q => p.1 < q.1) :=
    List.Pairwise.sublist (List.filter_sublist _) h1
  have h3 : S.map (fun k => k.idx) = (survivors (rowsOf accs)).map Prod.fst :=
    withKeys_map_idx hW
  have h4 : ((survivors (rowsOf accs)).map Prod.fst).Pairwise (· < ·) :=
    List.pairwise_map.mpr h2
  rw [← h3] at h4
  exact List.pairwise_map.mp h4

lemma S_nodup_idx {accs : List String} {S : List KRow}
    (hW : withKeys (survivors (rowsOf accs)) = some S) :
    (S.map (fun k => k.idx)).Nodup := by
  have h := List.pairwise_map.mpr (S_pairwise_idx hW)
  exact h.imp fun hlt => Nat.ne_of_lt hlt

lemma keepIdx_spec {S : List KRow} {i : String} {k : KRow} (hk : k ∈ groupOf S i) :
    ∃ r ∈ groupOf S i, keepIdx S i = some r.idx ∧
      (groupOf S i).find?
        (fun t => (groupOf S i).all (fun s => decide (s.version ≤ t.version))) = some r ∧
      ∀ s ∈ groupOf S i, s.version ≤ r.version := by
  obtain ⟨m, hm, hmax⟩ :=
    exists_argmax (fun t : KRow => t.version) (groupOf S i) (List.ne_nil_of_mem hk)
  have hpm : ((groupOf S i).all (fun s => decide (s.version ≤ m.version))) = true := by
    simp only [List.all_eq_true, decide_eq_true_eq]
    exact fun s hs => hmax s hs
  have hsome :
      ((groupOf S i).find?
        (fun t => (groupOf S i).all (fun s => decide (s.version ≤ t.version)))).isSome := by
    rw [List.find?_isSome]
    exact ⟨m, hm, hpm⟩
  obtain ⟨r, hr⟩ := Option.isSome_iff_exists.mp hsome
  have hrmem := List.mem_of_find?_eq_some hr
  have hrp := List.find?_some hr
  refine ⟨r, hrmem, ?_, hr, ?_⟩
  · simp [keepIdx, hr]
  · intro s hs
    have := (List.all_eq_true.mp hrp) s hs
    simpa using this

lemma find?_first {α : Type} {R : α → α → Prop} {p : α → Bool} {l : List α} {r : α}
    (hp : l.Pairwise R) (h : l.find? p = some r) {s : α} (hs : s ∈ l) (hps : p s = true) :
    r = s ∨ R r s := by
  rw [List.find?_eq_some] at h
  obtain ⟨hpr, as, bs, rfl, has⟩ := h
  rcases List.mem_append.mp hs with hsas | hsrb
  · have := has s hsas
    simp [hps] at this
  · rcases List.mem_cons.mp hsrb with rfl | hsbs
    · exact Or.inl rfl
    · right
      have h2 : (r :: bs).Pairwise R :=
        List.Pairwise.sublist (List.sublist_append_right as (r :: bs)) hp
      exact (List.pairwise_cons.mp h2).1 s hsbs

lemma duplicate_removal_eq {accs : List String} {kept : List KRow}
    {dup : List (Nat × String)} {upd : List KRow}
    (h : duplicate_removal accs = some (kept, dup, upd)) :
    ∃ S, withKeys (survivors (rowsOf accs)) = some S ∧
      kept = S.filter (fun r => keepIdx S r.id == some r.idx) ∧
      dup = (rowsOf accs).filter (fun r => laterDup (rowsOf accs) r) ∧
      upd = S.filter (fun r => !(keepIdx S r.id == some r.idx)) := by
  simp only [duplicate_removal] at h
  cases hW : withKeys (survivors (rowsOf accs)) with
  | none => rw [hW] at h; simp at h
  | some S =>
    rw [hW] at h
    simp only [Option.some.injEq, Prod.mk.injEq] at h
    exact ⟨S, rfl, h.1.symm, h.2.1.symm, h.2.2.symm⟩

lemma memS_facts {accs : List String} {S : List KRow}
    (hW : withKeys (survivors (rowsOf accs)) = some S) {k : KRow} (hk : k ∈ S) :
    k.acc ∈ accs ∧ split_accession k.acc = some (k.id, k.version) := by
  obtain ⟨hmem, hsplit⟩ := withKeys_mem hW k hk
  have hrows : (k.idx, k.acc) ∈ rowsOf accs := (mem_survivors_iff.mp hmem).1
  exact ⟨mem_of_mem_enumFrom accs 0 k.idx hrows, hsplit⟩

lemma input_to_S {accs : List String} {S : List KRow}
    (hW : withKeys (survivors (rowsOf accs)) = some S) {a i : String} {v : Int}
    (ha : a ∈ accs) (hs : split_accession a = some (i, v)) :
    ∃ k ∈ S, k.acc = a ∧ k.id = i ∧ k.version = v := by
  obtain ⟨p, hp⟩ := exists_mem_enumFrom accs ha 0
  obtain ⟨s, hsm, hsacc⟩ := exists_survivor (rowsOf accs) (p, a) hp
  obtain ⟨k, hkS, hkidx, hkacc⟩ := withKeys_surj hW s hsm
  have hacc : k.acc = a := by rw [hkacc]; exact hsacc
  have hsplit := (withKeys_mem hW k hkS).2
  rw [hacc, hs] at hsplit
  simp only [Option.some.injEq, Prod.mk.injEq] at hsplit
  exact ⟨k, hkS, hacc, hsplit.1.symm, hsplit.2.symm⟩

lemma contains_iff {l : List String} {a : String} : l.contains a = true ↔ a ∈ l := by
  simp [List.contains_eq_any_beq]

lemma mem_dedupAux : ∀ (l seen : List String) (a : String),
    a ∈ dedupAux seen l ↔ a ∈ l ∧ a ∉ seen := by
  intro l
  induction l with
  | nil => intro seen a; simp [dedupAux]
  | cons x xs ih =>
    intro seen a
    by_cases hc : seen.contains x
    · rw [dedupAux, if_pos hc, ih]
      have hxseen : x ∈ seen := contains_iff.mp hc
      constructor
      · rintro ⟨h1, h2⟩
        exact ⟨List.mem_cons_of_mem _ h1, h2⟩
      · rintro ⟨h1, h2⟩
        rcases List.mem_cons.mp h1 with rfl | h1
        · exact absurd hxseen h2
        · exact ⟨h1, h2⟩
    · rw [dedupAux, if_neg hc]
      have hxseen : x ∉ seen := fun hh => hc (contains_iff.mpr hh)
      constructor
      · intro h1
        rcases List.mem_cons.mp h1 with rfl | h1
        · exact ⟨List.mem_cons_self _ _, hxseen⟩
        · rw [ih] at h1
          obtain ⟨h2, h3⟩ := h1
          exact ⟨List.mem_cons_of_mem _ h2, fun hh => h3 (List.mem_cons_of_mem _ hh)⟩
      · rintro ⟨h1, h2⟩
        rcases List.mem_cons.mp h1 with rfl | h1
        · exact List.mem_cons_self _ _
        · by_cases hax : a = x
          · subst hax
            exact List.mem_cons_self _ _
          · apply List.mem_cons_of_mem
            rw [ih]
            refine ⟨h1, ?_⟩
            intro hh
            rcases List.mem_cons.mp hh with hh1 | hh1
            · exact hax hh1
            · exact h2 hh1

lemma nodup_dedupAux : ∀ (l seen : List String), (dedupAux seen l).Nodup := by
  intro l
  induction l with
  | nil => intro seen; simp [dedupAux]
  | cons x xs ih =>
    intro seen
    by_cases hc : seen.contains x
    · rw [dedupAux, if_pos hc]
      exact ih seen
    · rw [dedupAux, if_neg hc, List.nodup_cons]
      refine ⟨?_, ih (x :: seen)⟩
      intro hmem
      rw [mem_dedupAux] at hmem
      exact hmem.2 (List.mem_cons_self _ _)

lemma lookupD_cons (p : String × Int) (d : List (String × Int)) (i : String) :
    lookupD (p :: d) i = if p.1 = i then some p.2 else lookupD d i := by
  by_cases h : p.1 = i
  · rw [lookupD, List.find?_cons_of_pos _ (by simpa using h), if_pos h]
    simp
  · rw [lookupD, List.find?_cons_of_neg _ (by simpa using h), if_neg h]
    rfl

lemma lookupD_map_update (k : String) (v : Int) (i : String) :
    ∀ d : List (String × Int),
      lookupD (d.map (fun p => if p.1 == k then (k, v) else p)) i =
        if i = k then (if d.any (fun p => p.1 == k) then some v else none)
        else lookupD d i := by
  intro d
  induction d with
  | nil => simp [lookupD]
  | cons p d ih =>
    by_cases hpk : p.1 = k
    · have himg : (if p.1 == k then (k, v) else p) = (k, v) := by simp [hpk]
      rw [List.map_cons, himg, lookupD_cons, ih, List.any_cons]
      by_cases hik : i = k
      · subst hik
        simp [hpk]
      · have hki : ¬ k = i := fun hh => hik (Eq.symm hh)
        have hpi : ¬ p.1 = i := by rw [hpk]; exact hki
        rw [if_neg hki, if_neg hik, if_neg hik, lookupD_cons, if_neg hpi]
    · have himg : (if p.1 == k then (k, v) else p) = p := by simp [hpk]
      rw [List.map_cons, himg, lookupD_cons, ih, lookupD_cons, List.any_cons]
      have hany : ((p.1 == k) || d.any (fun q => q.1 == k)) = d.any (fun q => q.1 == k) := by
        simp [hpk]
      rw [hany]
      by_cases hpi : p.1 = i
      · have hik : ¬ i = k := by rw [← hpi]; exact hpk
        rw [if_pos hpi, if_neg hik, if_pos hpi]
      · rw [if_neg hpi]
        by_cases hik : i = k
        · rw [if_pos hik, if_pos hik]
        · rw [if_neg hik, if_neg hik, if_neg hpi]

lemma lookupD_dictInsert (d : List (String × Int)) (k : String) (v : Int) (i : String) :
    lookupD (dictInsert d k v) i = if i = k then some v else lookupD d i := by
  rw [dictInsert]
  by_cases hany : d.any (fun p => p.1 == k) = true
  · rw [if_pos hany, lookupD_map_update, hany]
    simp
  · rw [if_neg hany, lookupD, List.find?_append]
    by_cases hik : i = k
    · subst hik
      have hnone : d.find? (fun p => p.1 == i) = none := by
        rw [List.find?_eq_none]
        intro p hp hpi
        apply hany
        rw [List.any_eq_true]
        exact ⟨p, hp, hpi⟩
      rw [hnone, if_pos rfl]
      simp [List.find?]
    · have hki : ((k : String) == i) = false :=
        beq_eq_false_iff_ne.mpr (fun hh => hik (Eq.symm hh))
      have h2 : ([(k, v)] : List (String × Int)).find? (fun p => p.1 == i) = none := by
        simp [List.find?, hki]
      rw [h2, if_neg hik]
      simp [lookupD]

lemma lookupD_foldl (i : String) :
    ∀ (prs : List (String × Int)) (d : List (String × Int)),
      lookupD (prs.foldl (fun d p => dictInsert d p.1 p.2) d) i =
        ((prs.reverse.find? (fun p => p.1 == i)).map (fun p => p.2)).or (lookupD d i) := by
  intro prs
  induction prs with
  | nil => intro d; simp
  | cons p ps ih =>
    intro d
    rw [List.foldl_cons, ih, List.reverse_cons, List.find?_append]
    cases hfind : ps.reverse.find? (fun q => q.1 == i) with
    | some q => simp
    | none =>
      simp only [Option.none_or, Option.map_none', Option.none_or]
      rw [lookupD_dictInsert]
      by_cases hip : i = p.1
      · have hfp : ([p].find? (fun q => q.1 == i)) = some p := by
          simp [List.find?, hip]
        rw [hfp, if_pos hip]
        simp
      · have hpi : (p.1 == i) = false :=
          beq_eq_false_iff_ne.mpr (fun hh => hip (Eq.symm hh))
        have hfp : ([p].find? (fun q => q.1 == i)) = none := by
          simp [List.find?, hpi]
        rw [hfp, if_neg hip]
        simp

lemma lookupD_pyDictOf (prs : List (String × Int)) (i : String) :
    lookupD (pyDictOf prs) i = (prs.reverse.find? (fun p => p.1 == i)).map (fun p => p.2) := by
  rw [pyDictOf, lookupD_foldl]
  simp [lookupD]

lemma parseAll_eq_none {α β : Type} (f : α → Option β) :
    ∀ l : List α, parseAll f l = none ↔ ∃ x ∈ l, f x = none := by
  intro l
  induction l with
  | nil => simp [parseAll]
  | cons x xs ih =>
    rw [parseAll]
    cases hfx : f x with
    | none =>
      simp only [true_iff]
      exact ⟨x, List.mem_cons_self _ _, hfx⟩
    | some y =>
      cases hxs : parseAll f xs with
      | none =>
        simp only [true_iff]
        obtain ⟨z, hz, hfz⟩ := ih.mp hxs
        exact ⟨z, List.mem_cons_of_mem _ hz, hfz⟩
      | some ys =>
        constructor
        · intro h
          simp at h
        · rintro ⟨z, hz, hfz⟩
          rcases List.mem_cons.mp hz with rfl | hz
          · rw [hfx] at hfz
            simp at hfz
          · have hno : parseAll f xs = none := ih.mpr ⟨z, hz, hfz⟩
            rw [hno] at hxs
            simp at hxs

/-! Claim theorems. -/

/-- Claim C1: for the input sequence with accession strings X1.1, X1.2,
X1.2 at insertion indices 0, 1, 2, duplicate_removal keeps exactly the
index-2 record (X1.2) and drops the index-1 record with reason
duplicate and the index-0 record with reason update. -/
theorem c1_scenario_a :
    duplicate_removal ["X1.1", "X1.2", "X1.2"] =
      some ([⟨2, "X1.2", "X1", 2⟩], [(1, "X1.2")], [⟨0, "X1.1", "X1", 1⟩]) := rfl

/-- Claim C2 counterexample: pruning empty stores with the keep set
containing A1.1 leaves every store empty, so the post-prune accession
set of the version-index store does not equal the keep set (A1.1 is
missing): prune produces no omission repair. -/
theorem c2_counterexample :
    ((clean_profiles_from_data ["A1.1"] ⟨some [], some [], some [], some []⟩).2).idsFile =
      some ([] : List String) ∧
    "A1.1" ∈ (["A1.1"] : List String) ∧ "A1.1" ∉ ([] : List String) :=
  ⟨rfl, by decide, by decide⟩

/-- Claim C2 amended: after prune with keep set S, the accession set of
each store equals the intersection of its prior accession set with S
(so there are no extras, but accessions of S absent from a store stay
absent), and the sequence-file root set equals the intersection of the
prior root set with the identifier parts of S. -/
theorem c2_amended (S : List String) (st : DataState) :
    (∀ a, memStore ((clean_profiles_from_data S st).2).idsFile a ↔
      memStore st.idsFile a ∧ a ∈ S) ∧
    (∀ a, memStore ((clean_profiles_from_data S st).2).removedFile a ↔
      memStore st.removedFile a ∧ a ∈ S) ∧
    (∀ a, memStore ((clean_profiles_from_data S st).2).metadataFile a ↔
      memStore st.metadataFile a ∧ a ∈ S) ∧
    (∀ r, memStore ((clean_profiles_from_data S st).2).seqsDir r ↔
      memStore st.seqsDir r ∧ r ∈ S.map rootOf) := by
  obtain ⟨i, rm, mt, sq⟩ := st
  refine ⟨fun a => ?_, fun a => ?_, fun a => ?_, fun r => ?_⟩
  · cases i with
    | none => simp [clean_profiles_from_data, memStore]
    | some l => simp [clean_profiles_from_data, memStore, List.mem_filter, contains_iff]
  · cases rm with
    | none => simp [clean_profiles_from_data, memStore]
    | some l => simp [clean_profiles_from_data, memStore, List.mem_filter, contains_iff]
  · cases mt with
    | none => simp [clean_profiles_from_data, memStore]
    | some l => simp [clean_profiles_from_data, memStore, List.mem_filter, contains_iff]
  · cases sq with
    | none => simp [clean_profiles_from_data, memStore]
    | some l => simp [clean_profiles_from_data, memStore, List.mem_filter, contains_iff]

/-- Claim C3 counterexample: with prior snapshot A1.1, B2.3 and new
batch B2.3, C3.1, save_processed_ids writes B2.3, C3.1, A1.1 (the new
batch comes first in the source's concatenation), not the claimed
A1.1, B2.3, C3.1. -/
theorem c3_counterexample :
    save_processed_ids ["B2.3", "C3.1"] ["A1.1", "B2.3"] = ["B2.3", "C3.1", "A1.1"] ∧
    (["B2.3", "C3.1", "A1.1"] : List String) ≠ ["A1.1", "B2.3", "C3.1"] :=
  ⟨rfl, by decide⟩

/-- Claim C3 amended: save_processed_ids writes the order-preserving,
first-occurrence-wins union of the newly processed accessions with the
prior snapshot, in that order (new ids first); for the prior snapshot
A1.1, B2.3 and new batch B2.3, C3.1 the saved snapshot is B2.3, C3.1,
A1.1. -/
theorem c3_amended :
    (∀ processed_ids old_processed_ids : List String,
      (∀ a, a ∈ save_processed_ids processed_ids old_processed_ids ↔
        a ∈ processed_ids ∨ a ∈ old_processed_ids) ∧
      (save_processed_ids processed_ids old_processed_ids).Nodup) ∧
    save_processed_ids ["B2.3", "C3.1"] ["A1.1", "B2.3"] = ["B2.3", "C3.1", "A1.1"] := by
  refine ⟨fun pnew pold => ⟨fun a => ?_, nodup_dedupAux _ _⟩, rfl⟩
  rw [save_processed_ids, mem_dedupAux]
  simp

/-- Claim C4 counterexample: split_accession accepts version 0 and
negative versions, since Python int accepts them; they are not parse
errors. -/
theorem c4_counterexample :
    split_accession "X.0" = some ("X", 0) ∧ split_accession "X.-3" = some ("X", -3) :=
  ⟨rfl, rfl⟩

/-- Claim C4 amended: split_accession fails exactly when the accession
does not split into exactly two parts on the dot or the version part is
not a valid Python integer literal; a version of 0 or a negative
version parses successfully and is not an error. -/
theorem c4_amended :
    (∀ a : String, split_accession a = none ↔
      ((pySplit '.' a).length ≠ 2 ∨
        ∃ i ver, pySplit '.' a = [i, ver] ∧ pyIntOfString ver = none)) ∧
    split_accession "X.0" = some ("X", 0) ∧ split_accession "X.-3" = some ("X", -3) := by
  refine ⟨fun a => ?_, rfl, rfl⟩
  rw [split_accession]
  cases hsp : pySplit '.' a with
  | nil => simp [hsp]
  | cons x xs =>
    cases xs with
    | nil => simp [hsp]
    | cons y ys =>
      cases ys with
      | nil =>
        simp only [hsp, Option.map_eq_none', List.length_cons, List.length_nil,
          List.cons.injEq, and_true, ne_eq]
        constructor
        · intro hnone
          exact Or.inr ⟨x, y, ⟨rfl, rfl⟩, hnone⟩
        · rintro (hlen | ⟨i, ver, ⟨rfl, rfl⟩, hnone⟩)
          · simp at hlen
          · exact hnone
      | cons z zs => simp [hsp]

/-- Claim C5: for every input and identifier, duplicate_removal keeps a
record of that identifier whose version equals the maximum version
present among all input records with that identifier, and every kept
record of that identifier has version at least any input version for
it. -/
theorem c5_version_monotonicity (accs : List String) (kept : List KRow)
    (dup : List (Nat × String)) (upd : List KRow)
    (h : duplicate_removal accs = some (kept, dup, upd)) (i : String) :
    (∀ a v, a ∈ accs → split_accession a = some (i, v) →
      ∃ r ∈ kept, r.id = i ∧ v ≤ r.version ∧
        ∃ b ∈ accs, split_accession b = some (i, r.version)) ∧
    (∀ r ∈ kept, r.id = i → ∀ a v, a ∈ accs → split_accession a = some (i, v) →
      v ≤ r.version) := by
  obtain ⟨S, hW, hkept, hdup, hupd⟩ := duplicate_removal_eq h
  subst hkept
  constructor
  · intro a v ha hs
    obtain ⟨k, hkS, hkacc, hkid, hkver⟩ := input_to_S hW ha hs
    have hkg : k ∈ groupOf S i := by
      rw [groupOf, List.mem_filter]
      exact ⟨hkS, by simp [hkid]⟩
    obtain ⟨r, hrg, hkeep, hfind, hmax⟩ := keepIdx_spec hkg
    have hrS : r ∈ S := (List.mem_filter.mp hrg).1
    have hrid : r.id = i := by
      have := (List.mem_filter.mp hrg).2
      simpa using this
    have hrk : r ∈ S.filter (fun q => keepIdx S q.id == some q.idx) := by
      rw [List.mem_filter]
      refine ⟨hrS, ?_⟩
      rw [hrid, hkeep]
      simp
    refine ⟨r, hrk, hrid, ?_, ?_⟩
    · rw [← hkver]
      exact hmax k hkg
    · obtain ⟨hacc, hsp⟩ := memS_facts hW hrS
      refine ⟨r.acc, hacc, ?_⟩
      rw [hsp, hrid]
  · intro r hrk hrid a v ha hs
    have hrS : r ∈ S := (List.mem_filter.mp hrk).1
    have hrkeep : keepIdx S r.id = some r.idx := by
      have := (List.mem_filter.mp hrk).2
      simpa using this
    obtain ⟨k, hkS, hkacc, hkid, hkver⟩ := input_to_S hW ha hs
    have hkg : k ∈ groupOf S i := by
      rw [groupOf, List.mem_filter]
      exact ⟨hkS, by simp [hkid]⟩
    obtain ⟨r0, hr0g, hkeep0, hfind0, hmax0⟩ := keepIdx_spec hkg
    have hr0S : r0 ∈ S := (List.mem_filter.mp hr0g).1
    have heq : r = r0 := by
      apply List.inj_on_of_nodup_map (S_nodup_idx hW) hrS hr0S
      have h1 : keepIdx S i = some r.idx := by
        rw [← hrid]
        exact hrkeep
      rw [hkeep0] at h1
      exact (Option.some.inj h1).symm
    rw [heq, ← hkver]
    exact hmax0 k hkg

/-- Claim C5 witness: in Scenario A the kept record for identifier X1
has the maximal version 2, attained by an input accession. -/
theorem c5_version_monotonicity_witness :
    ∃ r ∈ [(⟨2, "X1.2", "X1", 2⟩ : KRow)], r.id = "X1" ∧ (1 : Int) ≤ r.version ∧
      ∃ b ∈ ["X1.1", "X1.2", "X1.2"], split_accession b = some ("X1", r.version) :=
  (c5_version_monotonicity ["X1.1", "X1.2", "X1.2"] [⟨2, "X1.2", "X1", 2⟩]
    [(1, "X1.2")] [⟨0, "X1.1", "X1", 1⟩] (by decide) "X1").1 "X1.1" 1 (by decide) (by decide)

/-- Claim C6 counterexample: for input X.1, X.01 both entries survive
the identical-accession dedup and tie at version 1, yet
duplicate_removal keeps the entry with insertion index 0, not the
highest insertion index 1. -/
theorem c6_counterexample :
    duplicate_removal ["X.1", "X.01"] =
      some ([⟨0, "X.1", "X", 1⟩], [], [⟨1, "X.01", "X", 1⟩]) ∧
    (0 : Nat) ≠ 1 :=
  ⟨rfl, by decide⟩

/-- Claim C6 amended: in duplicate_removal's version-supersession step,
when several surviving entries of an identifier share the maximum
version, the kept entry is the one with the lowest insertion index
(pandas idxmax returns the first row attaining the maximum), so every
update-dropped entry with the same identifier and version has a
strictly larger insertion index. -/
theorem c6_amended (accs : List String) (kept : List KRow)
    (dup : List (Nat × String)) (upd : List KRow)
    (h : duplicate_removal accs = some (kept, dup, upd)) :
    ∀ r ∈ kept, ∀ s ∈ upd, s.id = r.id → s.version = r.version → r.idx < s.idx := by
  obtain ⟨S, hW, hkept, hdup, hupd⟩ := duplicate_removal_eq h
  subst hkept hupd
  intro r hrk s hsu hsid hsver
  have hrS : r ∈ S := (List.mem_filter.mp hrk).1
  have hrkeep : keepIdx S r.id = some r.idx := by
    have := (List.mem_filter.mp hrk).2
    simpa using this
  have hsS : s ∈ S := (List.mem_filter.mp hsu).1
  have hsnot : ¬ keepIdx S s.id = some s.idx := by
    have := (List.mem_filter.mp hsu).2
    simpa using this
  have hrg : r ∈ groupOf S r.id := by
    rw [groupOf, List.mem_filter]
    exact ⟨hrS, by simp⟩
  have hsg : s ∈ groupOf S r.id := by
    rw [groupOf, List.mem_filter]
    exact ⟨hsS, by simp [hsid]⟩
  obtain ⟨r0, hr0g, hkeep0, hfind0, hmax0⟩ := keepIdx_spec hrg
  have hr0S : r0 ∈ S := (List.mem_filter.mp hr0g).1
  have heq : r = r0 := by
    apply List.inj_on_of_nodup_map (S_nodup_idx hW) hrS hr0S
    have h1 := hrkeep.symm.trans hkeep0
    exact Option.some.inj h1
  rw [← heq] at hfind0 hmax0
  have hps : ((groupOf S r.id).all (fun t => decide (t.version ≤ s.version))) = true := by
    rw [List.all_eq_true]
    intro t ht
    simp only [decide_eq_true_eq]
    calc t.version ≤ r.version := hmax0 t ht
      _ = s.version := hsver.symm
  have hgp : (groupOf S r.id).Pairwise (fun a b => a.idx < b.idx) :=
    List.Pairwise.sublist (List.filter_sublist _) (S_pairwise_idx hW)
  rcases find?_first hgp hfind0 hsg hps with rfl | hlt
  · exact absurd hrkeep hsnot
  · exact hlt

/-- Claim C6 witness: for input X.1, X.01 the kept tied entry has the
strictly smaller insertion index. -/
theorem c6_amended_witness :
    (⟨0, "X.1", "X", (1 : Int)⟩ : KRow).idx < (⟨1, "X.01", "X", (1 : Int)⟩ : KRow).idx :=
  c6_amended ["X.1", "X.01"] [⟨0, "X.1", "X", 1⟩] [] [⟨1, "X.01", "X", 1⟩] (by decide)
    ⟨0, "X.1", "X", 1⟩ (by decide) ⟨1, "X.01", "X", 1⟩ (by decide) rfl rfl

/-- Claim C7: pruning is idempotent: running clean_profiles_from_data a
second time with the same keep set immediately after a first run leaves
every store and the sequence-file directory unchanged. -/
theorem c7_idempotent (S : List String) (st : DataState) :
    (clean_profiles_from_data S (clean_profiles_from_data S st).2).2 =
      (clean_profiles_from_data S st).2 := by
  obtain ⟨i, rm, mt, sq⟩ := st
  cases i <;> cases rm <;> cases mt <;> cases sq <;>
    simp [clean_profiles_from_data, List.filter_filter]

/-- Claim C8 counterexample: a prune that removes two version-index
rows and one fasta file still returns 0, not a summary count of the
rows and files removed per store. -/
theorem c8_counterexample :
    (clean_profiles_from_data ["A1.2"]
      ⟨some ["A1.1", "A1.2", "B2.1"], some [], some [], some ["A1", "B2"]⟩).1 = 0 ∧
    (clean_profiles_from_data ["A1.2"]
      ⟨some ["A1.1", "A1.2", "B2.1"], some [], some [], some ["A1", "B2"]⟩).2 =
      ⟨some ["A1.2"], some [], some [], some ["A1"]⟩ ∧
    (0 : Nat) ≠ 2 + 1 :=
  ⟨rfl, rfl, by decide⟩

/-- Claim C8 amended: clean_profiles_from_data returns the constant 0
on success whatever was removed (per-store removal counts are only
logged, not returned), and in particular completes returning 0 when
there is nothing to prune. -/
theorem c8_amended (ids_list : List String) (st : DataState) :
    (clean_profiles_from_data ids_list st).1 = 0 := rfl

/-- Claim C9: when the version-index store file exists but contains a
line that cannot be parsed, load_local_versions surfaces the error to
the caller instead of returning an empty store. -/
theorem c9_corrupt_store (lines : List String)
    (h : ∃ l ∈ lines, parseIdsLine l = none) :
    load_local_versions (some lines) = Except.error "ValueError" := by
  have hps : parseAll parseIdsLine lines = none := (parseAll_eq_none _ _).mpr h
  simp [load_local_versions, hps]

/-- Claim C9 witness: a one-line file whose line has no version
separator makes load_local_versions fail. -/
theorem c9_corrupt_store_witness :
    load_local_versions (some ["garbage"]) = Except.error "ValueError" :=
  c9_corrupt_store ["garbage"] ⟨"garbage", by decide, by decide⟩

/-- Claim C10: load_removed_versions returns the empty list when the
removed-ids file is absent (a different type from the present-file
dict), and when the file is present it skips the header line and
returns a dict mapping each identifier to the version of the last line
seen for it (last seen wins, not the maximum). -/
theorem c10_removed_versions :
    load_removed_versions none = some RemovedLoad.emptyList ∧
    ∀ (header : String) (rest : List String) (prs : List (String × Int)),
      parseAll parseRemovedLine rest = some prs →
        load_removed_versions (some (header :: rest)) =
          some (RemovedLoad.versionDict (pyDictOf prs)) ∧
        ∀ i, lookupD (pyDictOf prs) i =
          (prs.reverse.find? (fun p => p.1 == i)).map (fun p => p.2) := by
  refine ⟨rfl, ?_⟩
  intro header rest prs hpa
  refine ⟨?_, fun i => lookupD_pyDictOf prs i⟩
  simp [load_removed_versions, hpa]

/-- Claim C10 witness: a file whose data lines are X.2 then X.1 yields
the dict mapping X to 1, the version of the last line seen. -/
theorem c10_removed_versions_witness :
    load_removed_versions (some ["accession,reason", "X.2,lngth", "X.1,lngth"]) =
      some (RemovedLoad.versionDict (pyDictOf [("X", 2), ("X", 1)])) ∧
    lookupD (pyDictOf [("X", 2), ("X", 1)]) "X" =
      (([("X", 2), ("X", 1)] : List (String × Int)).reverse.find?
        (fun p => p.1 == "X")).map (fun p => p.2) := by
  have h := c10_removed_versions.2 "accession,reason" ["X.2,lngth", "X.1,lngth"]
    [("X", 2), ("X", 1)] (by decide)
  exact ⟨h.1, h.2 "X"⟩

end MitoFetch
